import Mathlib

/-!
# goclouddnstakeover: delegation walk and takeover classification

A shallow embedding of `go/goclouddnstakeover/goclouddnstakeover.go`.

* Go strings are modelled by `String` (sequences of runes).  `strings.Split`
  with the separator `"."` and `strings.ToUpper` are modelled rune by rune.
* `performDNSResolution` shells out to `dig`; it is a parameter of the model,
  a function of its four arguments returning the status and the records.
* `unicode.ToUpper` is table driven outside ASCII; the table is a parameter.
* Loops are recursive functions over the values the loop variable takes, a
  `break` returns at once and a Go run-time panic is `none`.
* A run of `checkDomainWorker` is the list of `performDNSResolution` calls it
  made and the list of strings it wrote with `fmt.Printf` (diagnostics written
  with `log.Printf` are not part of the model).
-/

namespace GoCloudDNSTakeover

/-! ## Library functions used by the program -/

/-- Split a rune sequence at every `'.'`, as `strings.Split(s, ".")` does:
the result has one more element than there are separators. -/
def splitOnDot : List Char → List (List Char)
  | [] => [[]]
  | c :: cs =>
    if c = '.' then [] :: splitOnDot cs
    else
      match splitOnDot cs with
      | [] => [[c]]
      | p :: ps => (c :: p) :: ps

/-- The call `strings.Split(s, ".")`. -/
def stringsSplitDot (s : String) : List String :=
  (splitOnDot s.data).map String.mk

/-- Go's `unicode.ToUpper`: the ASCII branch is the one of the Go library,
`caseTable r` stands for `unicode.To(unicode.UpperCase, r)`, which is only
consulted for runes above `unicode.MaxASCII`. -/
def unicodeToUpper (caseTable : Char → Char) (r : Char) : Char :=
  if r.toNat ≤ 127 then
    if 'a'.toNat ≤ r.toNat ∧ r.toNat ≤ 'z'.toNat then Char.ofNat (r.toNat - 32) else r
  else caseTable r

/-- The call `strings.ToUpper(s)`: every rune is mapped by `unicode.ToUpper`. -/
def stringsToUpper (caseTable : Char → Char) (s : String) : String :=
  String.mk (s.data.map (unicodeToUpper caseTable))

/-- Indexing of a slice with a Go `int`: out of range is a run-time panic. -/
def sliceIndex (xs : List String) (i : Int) : Option String :=
  if 0 ≤ i then xs[i.toNat]? else none

/-- The values taken by `i` in `for i := hi; i >= lo; i--`. -/
def descending (hi lo : Int) : List Int :=
  (List.range (hi - lo + 1).toNat).map (fun (k : Nat) => hi - (k : Int))

/-! ## Constants -/

/-- ScriptLabel is the relevant label for output from this script. -/
def ScriptLabel : String := "goclouddnstakeover"

/-- VulnCheckStatuses lists the vulnerable status code when checking NS. -/
def VulnCheckStatuses : List String := ["SERVFAIL", "REFUSED"]

/-! ## Domain levels -/

/-- Source `countDomainLevels`: the number of parts of the split domain. -/
def countDomainLevels (domain : String) : Nat :=
  let domainParts := stringsSplitDot domain
  domainParts.length

/-- Body of the loop of `getDomainLevel`, run for the given values of `i`. -/
def getDomainLevelLoop (domainParts : List String) (maxLevel : Int) :
    List Int → String → Option String
  | [], domainLevel => some domainLevel
  | i :: rest, domainLevel =>
    match sliceIndex domainParts i with
    | none => none
    | some part =>
      getDomainLevelLoop domainParts maxLevel rest
        (if i ≥ maxLevel - 1 then part else part ++ "." ++ domainLevel)

/-- Source `getDomainLevel`; `none` is the index-out-of-range panic. -/
def getDomainLevel (domain : String) (level : Int) : Option String :=
  let domainParts := stringsSplitDot domain
  let maxLevel : Int := domainParts.length
  getDomainLevelLoop domainParts maxLevel
    (descending (maxLevel - 1) (maxLevel - level - 1)) ""

/-! ## The worker -/

/-- One call of `performDNSResolution`, with its four arguments. -/
structure ResolutionCall where
  domain : String
  nameserver : String
  qtype : String
  digBinary : String
deriving DecidableEq

/-- The type of `performDNSResolution`: domain, nameserver, query type and
path of the dig binary to the status and the records. -/
abbrev Resolver := String → String → String → String → String × List String

/-- The local variables of the walk loop of `checkDomainWorker`, and the
calls of `performDNSResolution` made so far. -/
structure WalkState where
  status : String
  prevLevelNS : List String
  currLevelNS : List String
  nameserver : String
  calls : List ResolutionCall
deriving DecidableEq

/-- The backup loop `prevLevelNS = nil; for _, n := range currLevelNS`. -/
def backupNS (currLevelNS : List String) : List String :=
  currLevelNS.foldl (fun prevLevelNS n => prevLevelNS ++ [n]) []

/-- The loop `for l := 0; l < maxLevels; l++` of `checkDomainWorker`, run
for the given values of `l`. -/
def walkLoop (performDNSResolution : Resolver) (domain digBinary : String) :
    List Nat → WalkState → Option WalkState
  | [], st => some st
  | l :: ls, st =>
    let prevLevelNS := backupNS st.currLevelNS
    match getDomainLevel domain (l : Int) with
    | none => none
    | some domainLevel =>
      let r := performDNSResolution domainLevel st.nameserver "NS" digBinary
      let currLevelNS := r.2
      let calls := st.calls ++ [⟨domainLevel, st.nameserver, "NS", digBinary⟩]
      if h : 0 < currLevelNS.length then
        walkLoop performDNSResolution domain digBinary ls
          { status := r.1, prevLevelNS := prevLevelNS, currLevelNS := currLevelNS,
            nameserver := currLevelNS[0], calls := calls }
      else
        some { status := r.1, prevLevelNS := prevLevelNS, currLevelNS := currLevelNS,
               nameserver := st.nameserver, calls := calls }

/-- The first part of `checkDomainWorker`, up to the end of the walk loop. -/
def delegationWalk (performDNSResolution : Resolver)
    (domain startingNS digBinary : String) : Option WalkState :=
  let maxLevels := countDomainLevels domain
  walkLoop performDNSResolution domain digBinary (List.range maxLevels)
    { status := "", prevLevelNS := [], currLevelNS := [],
      nameserver := startingNS, calls := [] }

/-- The string written by the `fmt.Printf` of `checkDomainWorker`. -/
def findingLine (domain ns status : String) : String :=
  "[" ++ ScriptLabel ++ "] domain: " ++ domain ++ ", ns: " ++ ns ++
    ", status: " ++ status ++ "\n"

/-- The loop `for _, s := range VulnCheckStatuses` with its `break`; `out` is
what has been written to standard output so far. -/
def reportLoop (caseTable : Char → Char) (domain ns status : String) :
    List String → List String → List String
  | [], out => out
  | s :: rest, out =>
    if stringsToUpper caseTable status = s then
      out ++ [findingLine domain ns status]
    else
      reportLoop caseTable domain ns status rest out

/-- What a run of `checkDomainWorker` did: its `performDNSResolution` calls
and its `fmt.Printf` outputs, both in order. -/
structure WorkerRun where
  calls : List ResolutionCall
  stdout : List String
deriving DecidableEq

/-- The loop `for _, ns := range nameServersToCheck`. -/
def probeLoop (performDNSResolution : Resolver) (caseTable : Char → Char)
    (domain digBinary : String) : List String → WorkerRun → WorkerRun
  | [], run => run
  | ns :: rest, run =>
    let r := performDNSResolution domain ns "A" digBinary
    let status := r.1
    probeLoop performDNSResolution caseTable domain digBinary rest
      { calls := run.calls ++ [⟨domain, ns, "A", digBinary⟩],
        stdout := reportLoop caseTable domain ns status VulnCheckStatuses run.stdout }

/-- Source `checkDomainWorker`. -/
def checkDomainWorker (performDNSResolution : Resolver) (caseTable : Char → Char)
    (domain startingNS : String) (_timeout : Int) (digBinary : String) :
    Option WorkerRun :=
  match delegationWalk performDNSResolution domain startingNS digBinary with
  | none => none
  | some st =>
    let nameServersToCheck := st.currLevelNS ++ st.prevLevelNS
    some (probeLoop performDNSResolution caseTable domain digBinary nameServersToCheck
      { calls := st.calls, stdout := [] })

/-! ## The delegation chain, as the specification describes it -/

/-- The nameserver that is active when level `i` is resolved: the default
nameserver at level 0, afterwards the first record returned by the NS
resolution of the level before; `none` once a level has returned no record
(the walk has halted) or has no name. -/
def activeNameserver (performDNSResolution : Resolver)
    (domain startingNS digBinary : String) : Nat → Option String
  | 0 => some startingNS
  | i + 1 =>
    match activeNameserver performDNSResolution domain startingNS digBinary i,
      getDomainLevel domain (i : Int) with
    | some ns, some name => (performDNSResolution name ns "NS" digBinary).2.head?
    | _, _ => none

/-- The NS resolution of level `i`: the name of level `i` is asked for at the
nameserver active at level `i`. -/
def levelCall (performDNSResolution : Resolver)
    (domain startingNS digBinary : String) (i : Nat) : Option ResolutionCall :=
  match activeNameserver performDNSResolution domain startingNS digBinary i,
    getDomainLevel domain (i : Int) with
  | some ns, some name => some ⟨name, ns, "NS", digBinary⟩
  | _, _ => none

/-- The record list returned by the NS resolution of level `i`. -/
def levelNSRecords (performDNSResolution : Resolver)
    (domain startingNS digBinary : String) (i : Nat) : Option (List String) :=
  match activeNameserver performDNSResolution domain startingNS digBinary i,
    getDomainLevel domain (i : Int) with
  | some ns, some name => some (performDNSResolution name ns "NS" digBinary).2
  | _, _ => none

/-! ## The classifier, as the specification describes it -/

/-- Two rune sequences are equal when letter case is ignored: they have the
same length and corresponding runes have the same upper-case form. -/
def equalIgnoringCaseRunes (caseTable : Char → Char) : List Char → List Char → Bool
  | [], [] => true
  | a :: as, b :: bs =>
    (unicodeToUpper caseTable a == unicodeToUpper caseTable b) &&
      equalIgnoringCaseRunes caseTable as bs
  | _, _ => false

/-- A string all of whose runes are their own upper-case form. -/
def UpperFixed (caseTable : Char → Char) (t : List Char) : Prop :=
  ∀ b ∈ t, unicodeToUpper caseTable b = b

/-- Case-insensitive, exact equality of two strings. -/
def equalIgnoringCase (caseTable : Char → Char) (s t : String) : Bool :=
  equalIgnoringCaseRunes caseTable s.data t.data

/-- The verdict `classify(status, policy)`: the status equals some member of
the policy when letter case is ignored. -/
def classify (caseTable : Char → Char) (status : String) (policy : List String) : Bool :=
  policy.any (fun p => equalIgnoringCase caseTable status p)

/-! ## Resolvers used to instantiate the theorems -/

/-- Every name is delegated: each NS resolution returns two nameservers and
each A resolution answers `NOERROR`. -/
def intactResolver : Resolver := fun name _ qtype _ =>
  if qtype = "NS" then ("NOERROR", ["ns1." ++ name, "ns2." ++ name])
  else ("NOERROR", ["192.0.2.1"])

/-- Only the top level is delegated: the NS resolution of every longer name
returns no record. -/
def brokenResolver : Resolver := fun name _ qtype _ =>
  if qtype = "NS" ∧ name = "com" then ("NOERROR", ["a.gtld-servers.net."])
  else ("NXDOMAIN", [])

/-- Nothing answers: empty status and no record, whatever is asked. -/
def emptyResolver : Resolver := fun _ _ _ _ => ("", [])

/-- The name `dangling.example.com` is delegated to a nameserver that refuses
to answer for it; the nameserver of `example.com` answers `NOERROR`. -/
def danglingResolver : Resolver := fun name ns qtype _ =>
  if qtype = "NS" then
    if name = "com" then ("NOERROR", ["a.gtld-servers.net."])
    else if name = "example.com" then ("NOERROR", ["ns1.example.com."])
    else if name = "dangling.example.com" then ("NOERROR", ["ns-404.awsdns-50.com."])
    else ("NXDOMAIN", [])
  else if ns = "ns-404.awsdns-50.com." then ("REFUSED", [])
  else ("NOERROR", [])

/-- As `danglingResolver`, but the nameserver of `example.com` refuses the A
resolution as well. -/
def refusingResolver : Resolver := fun name ns qtype dig =>
  if qtype = "NS" then danglingResolver name ns qtype dig else ("REFUSED", [])

/-! ## Lemmas on the library functions -/

theorem splitOnDot_ne_nil (s : List Char) : splitOnDot s ≠ [] := by
  cases s with
  | nil => simp [splitOnDot]
  | cons c cs =>
    unfold splitOnDot
    split
    · simp
    · split <;> simp

theorem splitOnDot_length (s : List Char) :
    (splitOnDot s).length = s.count '.' + 1 := by
  induction s with
  | nil => simp [splitOnDot]
  | cons c cs ih =>
    unfold splitOnDot
    by_cases hc : c = '.'
    · subst hc
      simp [ih]
    · have hne := splitOnDot_ne_nil cs
      rw [if_neg hc]
      cases hs : splitOnDot cs with
      | nil => exact absurd hs hne
      | cons p ps =>
        rw [hs] at ih
        have : (c == '.') = false := by simpa using hc
        simpa [List.count_cons, this] using ih

theorem intercalate_splitOnDot (s : List Char) :
    List.intercalate ['.'] (splitOnDot s) = s := by
  induction s with
  | nil => simp [splitOnDot, List.intercalate, List.intersperse]
  | cons c cs ih =>
    have hne := splitOnDot_ne_nil cs
    unfold splitOnDot
    by_cases hc : c = '.'
    · subst hc
      rw [if_pos rfl]
      cases hs : splitOnDot cs with
      | nil => exact absurd hs hne
      | cons p ps =>
        rw [hs] at ih
        simpa [List.intercalate, List.intersperse] using ih
    · rw [if_neg hc]
      cases hs : splitOnDot cs with
      | nil => exact absurd hs hne
      | cons p ps =>
        rw [hs] at ih
        cases ps with
        | nil => simpa [List.intercalate, List.intersperse] using ih
        | cons q qs => simpa [List.intercalate, List.intersperse] using ih

theorem intercalate_go_append (a b s : String) (l : List String) :
    String.intercalate.go (a ++ b) s l = a ++ String.intercalate.go b s l := by
  induction l generalizing b with
  | nil => simp [String.intercalate.go]
  | cons x xs ih =>
    simp only [String.intercalate.go]
    rw [String.append_assoc, String.append_assoc, ← String.append_assoc b, ih]

theorem intercalate_cons_cons (s a b : String) (rest : List String) :
    String.intercalate s (a :: b :: rest) = a ++ s ++ String.intercalate s (b :: rest) := by
  simp only [String.intercalate, String.intercalate.go]
  rw [String.append_assoc, intercalate_go_append, intercalate_go_append, String.append_assoc]

theorem intercalate_mk_data (l : List (List Char)) :
    (String.intercalate "." (l.map String.mk)).data = List.intercalate ['.'] l := by
  induction l with
  | nil => simp [String.intercalate, List.intercalate, List.intersperse]
  | cons a as ih =>
    cases as with
    | nil => simp [String.intercalate, String.intercalate.go, List.intercalate, List.intersperse]
    | cons b bs =>
      rw [List.map_cons, List.map_cons, intercalate_cons_cons, ← List.map_cons]
      simp only [String.data_append, ih]
      simp [List.intercalate, List.intersperse]

theorem intercalate_stringsSplitDot (s : String) :
    String.intercalate "." (stringsSplitDot s) = s := by
  apply String.ext
  rw [stringsSplitDot, intercalate_mk_data, intercalate_splitOnDot]

theorem countDomainLevels_eq (domain : String) :
    countDomainLevels domain = domain.data.count '.' + 1 := by
  simp [countDomainLevels, stringsSplitDot, splitOnDot_length]

theorem countDomainLevels_pos (domain : String) : 1 ≤ countDomainLevels domain := by
  rw [countDomainLevels_eq]; omega

theorem splitOnDot_no_dot (s : List Char) : ∀ p ∈ splitOnDot s, '.' ∉ p := by
  induction s with
  | nil => simp [splitOnDot]
  | cons c cs ih =>
    unfold splitOnDot
    by_cases hc : c = '.'
    · rw [if_pos hc]
      intro p hp
      rcases List.mem_cons.1 hp with h | h
      · simp [h]
      · exact ih p h
    · rw [if_neg hc]
      cases hs : splitOnDot cs with
      | nil => simpa using fun h => hc h.symm
      | cons q qs =>
        rw [hs] at ih
        intro p hp
        rcases List.mem_cons.1 hp with h | h
        · subst h
          have := ih q (List.mem_cons_self _ _)
          simp only [List.mem_cons, not_or]
          exact ⟨fun h => hc h.symm, this⟩
        · exact ih p (List.mem_cons_of_mem _ h)

theorem getDomainLevelLoop_spec (parts : List String) (n : Nat) :
    ∀ (m : Nat) (acc : String), m ≤ parts.length → n ≤ m →
      acc = String.intercalate "." (parts.drop m) →
      getDomainLevelLoop parts (parts.length : Int)
        ((List.range n).map (fun (k : Nat) => ((m : Int) - 1) - (k : Int))) acc
        = some (String.intercalate "." (parts.drop (m - n))) := by
  induction n with
  | zero =>
    intro m acc _ _ hacc
    simp [getDomainLevelLoop, hacc]
  | succ n ih =>
    intro m acc hm hn hacc
    have hm1 : m - 1 < parts.length := by omega
    have hidx : sliceIndex parts ((m : Int) - 1) = some parts[m - 1] := by
      have h0 : (0 : Int) ≤ (m : Int) - 1 := by omega
      have h1 : ((m : Int) - 1).toNat = m - 1 := by omega
      simp [sliceIndex, h0, h1, List.getElem?_eq_getElem hm1]
    have hdrop : parts.drop (m - 1) = parts[m - 1] :: parts.drop m := by
      have := List.drop_eq_getElem_cons hm1
      rw [this]
      congr 2
      omega
    have hacc2 : (if ((m : Int) - 1) ≥ (parts.length : Int) - 1 then parts[m - 1]
        else parts[m - 1] ++ "." ++ acc) = String.intercalate "." (parts.drop (m - 1)) := by
      rw [hdrop]
      by_cases hlast : m = parts.length
      · have hc : ((m : Int) - 1) ≥ (parts.length : Int) - 1 := by omega
        rw [if_pos hc]
        have : parts.drop m = [] := by simp [hlast]
        simp [this, String.intercalate, String.intercalate.go]
      · have hc : ¬ ((m : Int) - 1) ≥ (parts.length : Int) - 1 := by omega
        rw [if_neg hc]
        have hlt : m < parts.length := by omega
        have hd : parts.drop m = parts[m] :: parts.drop (m + 1) :=
          List.drop_eq_getElem_cons hlt
        rw [hacc, hd, intercalate_cons_cons]
    have hlist : (List.range (n + 1)).map (fun (k : Nat) => ((m : Int) - 1) - (k : Int))
        = ((m : Int) - 1) ::
          (List.range n).map (fun (k : Nat) => (((m - 1 : Nat) : Int) - 1) - (k : Int)) := by
      rw [List.range_succ_eq_map]
      simp only [List.map_cons, List.map_map]
      congr 1
      · simp
      · apply List.map_congr_left
        intro k _
        simp only [Function.comp]
        omega
    rw [hlist]
    simp only [getDomainLevelLoop, hidx]
    rw [hacc2]
    have := ih (m - 1) (String.intercalate "." (parts.drop (m - 1))) (by omega) (by omega) rfl
    rw [this]
    congr 3
    omega

theorem getDomainLevel_eq_intercalate (domain : String) (level : Int)
    (h0 : 0 ≤ level) (h1 : level ≤ (countDomainLevels domain : Int) - 1) :
    getDomainLevel domain level = some (String.intercalate "."
      ((stringsSplitDot domain).drop
        ((countDomainLevels domain : Int) - 1 - level).toNat)) := by
  simp only [countDomainLevels] at h1 ⊢
  simp only [getDomainLevel, descending]
  generalize stringsSplitDot domain = parts at h1 ⊢
  have hn : ((parts.length : Int) - 1 - ((parts.length : Int) - level - 1) + 1).toNat
      = level.toNat + 1 := by omega
  rw [hn]
  have := getDomainLevelLoop_spec parts (level.toNat + 1) parts.length ""
    (le_refl _) (by omega) (by simp [String.intercalate])
  rw [this]
  congr 3
  omega

theorem getDomainLevel_isSome (domain : String) (l : Nat) (h : l < countDomainLevels domain) :
    ∃ name, getDomainLevel domain (l : Int) = some name :=
  ⟨_, getDomainLevel_eq_intercalate domain l (by omega) (by omega)⟩

theorem getDomainLevel_top (domain : String) :
    getDomainLevel domain ((countDomainLevels domain : Int) - 1) = some domain := by
  have h := countDomainLevels_pos domain
  rw [getDomainLevel_eq_intercalate domain _ (by omega) (le_refl _)]
  simp [intercalate_stringsSplitDot]

/-! ## Lemmas on the walk -/

theorem backupNS_eq (xs : List String) : backupNS xs = xs := by
  have h : ∀ (ys acc : List String),
      ys.foldl (fun prevLevelNS n => prevLevelNS ++ [n]) acc = acc ++ ys := by
    intro ys
    induction ys with
    | nil => intro acc; simp
    | cons y ys ih => intro acc; simp [ih]
  simpa [backupNS] using h xs []

section Walk

variable (res : Resolver) (domain startingNS dig : String)

theorem activeNameserver_none_add (i j : Nat)
    (h : activeNameserver res domain startingNS dig i = none) :
    activeNameserver res domain startingNS dig (i + j) = none := by
  induction j with
  | zero => exact h
  | succ j ih =>
    rw [← Nat.add_assoc]
    simp only [activeNameserver, ih]

theorem activeNameserver_of_empty (k : Nat)
    (h : levelNSRecords res domain startingNS dig k = some []) :
    activeNameserver res domain startingNS dig (k + 1) = none := by
  unfold levelNSRecords at h
  simp only [activeNameserver]
  split at h
  · rename_i ns name h1 h2
    simp only [Option.some.injEq] at h
    simp [h]
  · exact absurd h (by simp)

theorem levelNSRecords_none_of_empty (k i : Nat) (hki : k < i)
    (h : levelNSRecords res domain startingNS dig k = some []) :
    levelNSRecords res domain startingNS dig i = none := by
  have h1 := activeNameserver_of_empty res domain startingNS dig k h
  have h2 := activeNameserver_none_add res domain startingNS dig (k + 1) (i - (k + 1)) h1
  have : k + 1 + (i - (k + 1)) = i := by omega
  rw [this] at h2
  simp [levelNSRecords, h2]

theorem levelCall_eq (l : Nat) (ns name : String)
    (hns : activeNameserver res domain startingNS dig l = some ns)
    (hname : getDomainLevel domain (l : Int) = some name) :
    levelCall res domain startingNS dig l = some ⟨name, ns, "NS", dig⟩ := by
  simp [levelCall, hns, hname]

theorem levelNSRecords_eq (l : Nat) (ns name : String)
    (hns : activeNameserver res domain startingNS dig l = some ns)
    (hname : getDomainLevel domain (l : Int) = some name) :
    levelNSRecords res domain startingNS dig l = some (res name ns "NS" dig).2 := by
  simp [levelNSRecords, hns, hname]

theorem walkLoop_range' (n : Nat) : ∀ (l : Nat) (st : WalkState),
    l + n ≤ countDomainLevels domain →
    activeNameserver res domain startingNS dig l = some st.nameserver →
    ∃ st' m, walkLoop res domain dig (List.range' l n) st = some st' ∧
      m ≤ n ∧ (1 ≤ n → 1 ≤ m) ∧
      st'.calls.map some
        = st.calls.map some ++ (List.range' l m).map (levelCall res domain startingNS dig) ∧
      (∀ j, j + 1 < m → ∃ r, levelNSRecords res domain startingNS dig (l + j) = some r ∧ r ≠ []) ∧
      (1 ≤ m → levelNSRecords res domain startingNS dig (l + m - 1) = some st'.currLevelNS) ∧
      (m = 1 → st'.prevLevelNS = st.currLevelNS) ∧
      (2 ≤ m → levelNSRecords res domain startingNS dig (l + m - 2) = some st'.prevLevelNS) ∧
      (m < n → st'.currLevelNS = []) ∧
      (m = 0 → st' = st) := by
  induction n with
  | zero =>
    intro l st _ _
    refine ⟨st, 0, by simp [walkLoop], le_refl _, by omega, by simp, ?_, by omega, by omega,
      by omega, by omega, fun _ => rfl⟩
    intro j hj
    omega
  | succ n ih =>
    intro l st hl hns
    obtain ⟨name, hname⟩ := getDomainLevel_isSome domain l (by omega)
    have hcall := levelCall_eq res domain startingNS dig l _ _ hns hname
    have hrec := levelNSRecords_eq res domain startingNS dig l _ _ hns hname
    rw [List.range'_succ]
    simp only [walkLoop, hname, backupNS_eq]
    by_cases h : 0 < (res name st.nameserver "NS" dig).2.length
    · rw [dif_pos h]
      have hact : activeNameserver res domain startingNS dig (l + 1)
          = some ((res name st.nameserver "NS" dig).2[0]) := by
        simp only [activeNameserver, hns, hname]
        rw [List.head?_eq_head (List.ne_nil_of_length_pos h), List.getElem_zero]
      obtain ⟨st', m, hw, hmn, hm1, hcalls, hne, hcur, hprev1, hprev2, hearly, hzero⟩ :=
        ih (l + 1)
          { status := (res name st.nameserver "NS" dig).1, prevLevelNS := st.currLevelNS,
            currLevelNS := (res name st.nameserver "NS" dig).2,
            nameserver := (res name st.nameserver "NS" dig).2[0],
            calls := st.calls ++ [⟨name, st.nameserver, "NS", dig⟩] } (by omega) hact
      have hnonempty : (res name st.nameserver "NS" dig).2 ≠ [] := List.ne_nil_of_length_pos h
      refine ⟨st', m + 1, hw, by omega, by omega, ?_, ?_, ?_, ?_, ?_, ?_, by omega⟩
      · rw [hcalls, List.range'_succ]
        simp [hcall]
      · intro j hj
        cases j with
        | zero => exact ⟨_, hrec, hnonempty⟩
        | succ j =>
          have := hne j (by omega)
          rw [show l + (j + 1) = l + 1 + j by omega]
          exact this
      · intro _
        by_cases hm0 : m = 0
        · subst hm0
          rw [hzero rfl]
          simpa using hrec
        · have := hcur (by omega)
          rw [show l + (m + 1) - 1 = l + 1 + m - 1 by omega]
          exact this
      · intro hm
        have hm0 : m = 0 := by omega
        rw [hzero hm0]
      · intro hm
        by_cases hm1 : m = 1
        · subst hm1
          rw [hprev1 rfl]
          simpa using hrec
        · have := hprev2 (by omega)
          rw [show l + (m + 1) - 2 = l + 1 + m - 2 by omega]
          exact this
      · intro hm
        exact hearly (by omega)
    · rw [dif_neg h]
      have hempty : (res name st.nameserver "NS" dig).2 = [] := by
        cases hr : (res name st.nameserver "NS" dig).2 with
        | nil => rfl
        | cons a as => rw [hr] at h; simp at h
      refine ⟨_, 1, rfl, by omega, by omega, ?_, ?_, ?_, ?_, ?_, ?_, by omega⟩
      · simp [hcall]
      · intro j hj
        omega
      · intro _
        simpa using hrec
      · intro _
        rfl
      · intro hm
        omega
      · intro _
        exact hempty

theorem levelCall_some (i : Nat) (c : ResolutionCall)
    (h : levelCall res domain startingNS dig i = some c) :
    activeNameserver res domain startingNS dig i = some c.nameserver ∧
      getDomainLevel domain (i : Int) = some c.domain ∧ c.qtype = "NS" ∧ c.digBinary = dig := by
  unfold levelCall at h
  split at h
  · rename_i ns name h1 h2
    simp only [Option.some.injEq] at h
    subst h
    exact ⟨h1, h2, rfl, rfl⟩
  · exact absurd h (by simp)

theorem delegationWalk_isSome :
    ∃ st, delegationWalk res domain startingNS dig = some st := by
  obtain ⟨st, _, hw, _⟩ := walkLoop_range' res domain startingNS dig
    (countDomainLevels domain) 0
    { status := "", prevLevelNS := [], currLevelNS := [], nameserver := startingNS, calls := [] }
    (by omega) rfl
  exact ⟨st, by simpa [delegationWalk, List.range_eq_range'] using hw⟩

theorem delegationWalk_spec (st : WalkState)
    (h : delegationWalk res domain startingNS dig = some st) :
    1 ≤ st.calls.length ∧ st.calls.length ≤ countDomainLevels domain ∧
    st.calls.map some
      = (List.range st.calls.length).map (levelCall res domain startingNS dig) ∧
    (∀ j, j + 1 < st.calls.length →
      ∃ r, levelNSRecords res domain startingNS dig j = some r ∧ r ≠ []) ∧
    levelNSRecords res domain startingNS dig (st.calls.length - 1) = some st.currLevelNS ∧
    (st.calls.length = 1 → st.prevLevelNS = []) ∧
    (2 ≤ st.calls.length →
      levelNSRecords res domain startingNS dig (st.calls.length - 2) = some st.prevLevelNS) ∧
    (st.calls.length < countDomainLevels domain → st.currLevelNS = []) := by
  obtain ⟨st', m, hw, hmn, hm1, hcalls, hne, hcur, hprev1, hprev2, hearly, _⟩ :=
    walkLoop_range' res domain startingNS dig (countDomainLevels domain) 0
      { status := "", prevLevelNS := [], currLevelNS := [], nameserver := startingNS, calls := [] }
      (by omega) rfl
  have hst : st' = st := by
    have : delegationWalk res domain startingNS dig = some st' := by
      simpa [delegationWalk, List.range_eq_range'] using hw
    rw [h] at this
    exact (Option.some.inj this).symm
  subst hst
  have hpos := countDomainLevels_pos domain
  have hlen : st'.calls.length = m := by
    have := congrArg List.length hcalls
    simpa using this
  subst hlen
  have h1 : 1 ≤ st'.calls.length := hm1 hpos
  refine ⟨h1, hmn, ?_, ?_, ?_, ?_, ?_, hearly⟩
  · simpa [List.range_eq_range'] using hcalls
  · intro j hj
    simpa using hne j hj
  · simpa using hcur h1
  · intro h
    simpa using hprev1 h
  · intro h
    simpa using hprev2 h

theorem walk_length_of_empty (st : WalkState)
    (h : delegationWalk res domain startingNS dig = some st) (k : Nat)
    (hk : k < countDomainLevels domain)
    (hrec : levelNSRecords res domain startingNS dig k = some []) :
    st.calls.length = k + 1 := by
  obtain ⟨h1, _, _, hne, hcur, _, _, hearly⟩ := delegationWalk_spec res domain startingNS dig st h
  rcases Nat.lt_trichotomy st.calls.length (k + 1) with hlt | heq | hgt
  · have hempty := hearly (by omega)
    rw [hempty] at hcur
    have := levelNSRecords_none_of_empty res domain startingNS dig
      (st.calls.length - 1) k (by omega) hcur
    rw [this] at hrec
    exact absurd hrec (by simp)
  · exact heq
  · obtain ⟨r, hr, hr0⟩ := hne k hgt
    rw [hrec] at hr
    exact absurd (Option.some.inj hr).symm hr0

theorem walk_length_of_nonempty (st : WalkState)
    (h : delegationWalk res domain startingNS dig = some st)
    (hall : ∀ i, i + 1 < countDomainLevels domain →
      ∃ r, levelNSRecords res domain startingNS dig i = some r ∧ r ≠ []) :
    st.calls.length = countDomainLevels domain := by
  obtain ⟨h1, hle, _, _, hcur, _, _, hearly⟩ := delegationWalk_spec res domain startingNS dig st h
  by_contra hne
  have hlt : st.calls.length < countDomainLevels domain := by omega
  have hempty := hearly hlt
  rw [hempty] at hcur
  obtain ⟨r, hr, hr0⟩ := hall (st.calls.length - 1) (by omega)
  rw [hcur] at hr
  exact absurd (Option.some.inj hr).symm hr0

theorem walk_call_eq_levelCall (st : WalkState)
    (h : delegationWalk res domain startingNS dig = some st) (i : Nat) (c : ResolutionCall)
    (hc : st.calls[i]? = some c) :
    i < st.calls.length ∧ levelCall res domain startingNS dig i = some c := by
  obtain ⟨_, _, hcalls, _⟩ := delegationWalk_spec res domain startingNS dig st h
  have hi : i < st.calls.length := by
    by_contra hge
    rw [List.getElem?_eq_none (by omega)] at hc
    exact absurd hc (by simp)
  have h2 : (st.calls.map some)[i]? = some (some c) := by simp [hc]
  rw [hcalls] at h2
  exact ⟨hi, by simpa [List.getElem?_range hi] using h2⟩

end Walk

/-! ## Lemmas on the classification -/

theorem equalIgnoringCaseRunes_iff (caseTable : Char → Char) (s : List Char) :
    ∀ t : List Char, UpperFixed caseTable t →
      (equalIgnoringCaseRunes caseTable s t = true ↔ s.map (unicodeToUpper caseTable) = t) := by
  induction s with
  | nil =>
    intro t _
    cases t <;> simp [equalIgnoringCaseRunes]
  | cons a as ih =>
    intro t ht
    cases t with
    | nil => simp [equalIgnoringCaseRunes]
    | cons b bs =>
      have hb : unicodeToUpper caseTable b = b := ht b (List.mem_cons_self _ _)
      have hbs : UpperFixed caseTable bs := fun c hc => ht c (List.mem_cons_of_mem _ hc)
      simp [equalIgnoringCaseRunes, hb, ih bs hbs]

theorem equalIgnoringCaseRunes_length (caseTable : Char → Char) (s : List Char) :
    ∀ t : List Char, equalIgnoringCaseRunes caseTable s t = true → s.length = t.length := by
  induction s with
  | nil =>
    intro t h
    cases t with
    | nil => rfl
    | cons b bs => simp [equalIgnoringCaseRunes] at h
  | cons a as ih =>
    intro t h
    cases t with
    | nil => simp [equalIgnoringCaseRunes] at h
    | cons b bs =>
      simp only [equalIgnoringCaseRunes, Bool.and_eq_true] at h
      simp [ih bs h.2]

theorem upperFixed_SERVFAIL (caseTable : Char → Char) :
    UpperFixed caseTable "SERVFAIL".data := by
  intro b hb
  simp at hb
  rcases hb with h | h | h | h | h | h | h | h <;> subst h <;> rfl

theorem upperFixed_REFUSED (caseTable : Char → Char) :
    UpperFixed caseTable "REFUSED".data := by
  intro b hb
  simp at hb
  rcases hb with h | h | h | h | h | h | h <;> subst h <;> rfl

theorem stringsToUpper_eq_iff (caseTable : Char → Char) (status s : String) :
    stringsToUpper caseTable status = s ↔ status.data.map (unicodeToUpper caseTable) = s.data := by
  constructor
  · intro h
    rw [← h]
    rfl
  · intro h
    apply String.ext
    exact h

theorem equalIgnoringCase_iff_toUpper (caseTable : Char → Char) (status s : String)
    (hs : UpperFixed caseTable s.data) :
    equalIgnoringCase caseTable status s = true ↔ stringsToUpper caseTable status = s := by
  rw [stringsToUpper_eq_iff, equalIgnoringCase, equalIgnoringCaseRunes_iff _ _ _ hs]

theorem reportLoop_eq (caseTable : Char → Char) (domain ns status : String)
    (out : List String) (policy : List String) :
    reportLoop caseTable domain ns status policy out
      = if policy.any (fun s => decide (stringsToUpper caseTable status = s)) = true
        then out ++ [findingLine domain ns status] else out := by
  induction policy with
  | nil => simp [reportLoop]
  | cons s rest ih =>
    by_cases h : stringsToUpper caseTable status = s
    · simp [reportLoop, h]
    · simp [reportLoop, h, ih]

theorem reportLoop_classify (caseTable : Char → Char) (domain ns status : String)
    (out : List String) :
    reportLoop caseTable domain ns status VulnCheckStatuses out
      = if classify caseTable status VulnCheckStatuses = true
        then out ++ [findingLine domain ns status] else out := by
  rw [reportLoop_eq]
  have h1 := equalIgnoringCase_iff_toUpper caseTable status "SERVFAIL"
    (upperFixed_SERVFAIL caseTable)
  have h2 := equalIgnoringCase_iff_toUpper caseTable status "REFUSED"
    (upperFixed_REFUSED caseTable)
  have : (VulnCheckStatuses.any (fun s => decide (stringsToUpper caseTable status = s)) = true)
      ↔ (classify caseTable status VulnCheckStatuses = true) := by
    simp [VulnCheckStatuses, classify, h1, h2]
  by_cases hc : classify caseTable status VulnCheckStatuses = true
  · rw [if_pos hc, if_pos (this.2 hc)]
  · rw [if_neg hc, if_neg (fun h => hc (this.1 h))]

theorem unicodeToUpper_ascii (caseTable : Char → Char) (c : Char) (h : c.toNat ≤ 127) :
    unicodeToUpper caseTable c = c.toUpper := by
  simp only [unicodeToUpper, if_pos h, Char.toUpper]
  rfl

theorem findingLine_eq (domain ns status : String) :
    findingLine domain ns status
      = "[goclouddnstakeover] domain: " ++ domain ++ ", ns: " ++ ns ++ ", status: " ++
        status ++ "\n" := by
  have h : "[" ++ ScriptLabel ++ "] domain: " = "[goclouddnstakeover] domain: " := by decide
  rw [findingLine, h]

theorem probeLoop_eq (res : Resolver) (caseTable : Char → Char) (domain dig : String)
    (nss : List String) : ∀ run : WorkerRun,
    probeLoop res caseTable domain dig nss run
      = { calls := run.calls ++ nss.map (fun ns => ⟨domain, ns, "A", dig⟩),
          stdout := run.stdout ++ nss.filterMap (fun ns =>
            if classify caseTable (res domain ns "A" dig).1 VulnCheckStatuses = true
            then some (findingLine domain ns (res domain ns "A" dig).1) else none) } := by
  induction nss with
  | nil => intro run; simp [probeLoop]
  | cons ns rest ih =>
    intro run
    simp only [probeLoop, ih, reportLoop_classify]
    by_cases hc : classify caseTable (res domain ns "A" dig).1 VulnCheckStatuses = true
    · simp [hc]
    · simp [hc]

theorem checkDomainWorker_eq (res : Resolver) (caseTable : Char → Char)
    (domain startingNS : String) (timeout : Int) (dig : String) (st : WalkState)
    (hst : delegationWalk res domain startingNS dig = some st) :
    checkDomainWorker res caseTable domain startingNS timeout dig
      = some (probeLoop res caseTable domain dig (st.currLevelNS ++ st.prevLevelNS)
          { calls := st.calls, stdout := [] }) := by
  simp only [checkDomainWorker, hst]

/-! ## The claims -/

/-- C2: the `i`-th NS resolution of the walk asks for the name
`getDomainLevel(domain, i)`; it is sent to the default nameserver when
`i = 0` and otherwise to the first record returned by the resolution of level
`i - 1`.  At least one resolution is made. -/
theorem walk_queries (res : Resolver) (domain startingNS dig : String) :
    ∃ st, delegationWalk res domain startingNS dig = some st ∧
      1 ≤ st.calls.length ∧
      ∀ (i : Nat) (c : ResolutionCall), st.calls[i]? = some c →
        getDomainLevel domain (i : Int) = some c.domain ∧
        c.qtype = "NS" ∧ c.digBinary = dig ∧
        (i = 0 → c.nameserver = startingNS) ∧
        (∀ (j : Nat) (p : ResolutionCall), i = j + 1 → st.calls[j]? = some p →
          (res p.domain p.nameserver p.qtype p.digBinary).2.head? = some c.nameserver) := by
  obtain ⟨st, hst⟩ := delegationWalk_isSome res domain startingNS dig
  obtain ⟨h1, _⟩ := delegationWalk_spec res domain startingNS dig st hst
  have hcall : ∀ (i : Nat) (c : ResolutionCall), st.calls[i]? = some c →
      levelCall res domain startingNS dig i = some c :=
    fun i c hc => (walk_call_eq_levelCall res domain startingNS dig st hst i c hc).2
  refine ⟨st, hst, h1, ?_⟩
  intro i c hc
  obtain ⟨hns, hname, hq, hd⟩ := levelCall_some res domain startingNS dig i c (hcall i c hc)
  refine ⟨hname, hq, hd, ?_, ?_⟩
  · intro hi
    subst hi
    simpa [activeNameserver] using hns.symm
  · intro j p hij hp
    subst hij
    obtain ⟨hns', hname', hq', hd'⟩ :=
      levelCall_some res domain startingNS dig j p (hcall j p hp)
    simp only [activeNameserver, hns', hname'] at hns
    rw [hq', hd']
    exact hns

/-- C1: the walk returns a state; when every level before the last returned
at least one record, `currLevelNS` is the record list of the last level (the
full domain) and `prevLevelNS` the record list of the level before it (empty
for a one-label domain); when level `k` before the last is the first to
return no record, `currLevelNS` is empty and `prevLevelNS` is the non-empty
record list of level `k - 1` (empty when `k = 0`). -/
theorem delegationWalk_result (res : Resolver) (domain startingNS dig : String) :
    getDomainLevel domain ((countDomainLevels domain : Int) - 1) = some domain ∧
    ∃ st, delegationWalk res domain startingNS dig = some st ∧
      ((∀ i, i + 1 < countDomainLevels domain →
          ∃ r, levelNSRecords res domain startingNS dig i = some r ∧ r ≠ []) →
        levelNSRecords res domain startingNS dig (countDomainLevels domain - 1)
          = some st.currLevelNS ∧
        (countDomainLevels domain = 1 → st.prevLevelNS = []) ∧
        (2 ≤ countDomainLevels domain →
          levelNSRecords res domain startingNS dig (countDomainLevels domain - 2)
            = some st.prevLevelNS)) ∧
      (∀ k, k + 1 < countDomainLevels domain →
        levelNSRecords res domain startingNS dig k = some [] →
        (∀ j, j < k → ∃ r, levelNSRecords res domain startingNS dig j = some r ∧ r ≠ []) ∧
        st.currLevelNS = [] ∧
        (k = 0 → st.prevLevelNS = []) ∧
        (1 ≤ k → levelNSRecords res domain startingNS dig (k - 1) = some st.prevLevelNS ∧
          st.prevLevelNS ≠ [])) := by
  refine ⟨getDomainLevel_top domain, ?_⟩
  obtain ⟨st, hst⟩ := delegationWalk_isSome res domain startingNS dig
  obtain ⟨h1, hle, _, hne, hcur, hprev1, hprev2, hearly⟩ :=
    delegationWalk_spec res domain startingNS dig st hst
  refine ⟨st, hst, ?_, ?_⟩
  · intro hall
    have hlen := walk_length_of_nonempty res domain startingNS dig st hst hall
    rw [hlen] at hcur hprev1 hprev2
    exact ⟨hcur, hprev1, hprev2⟩
  · intro k hk hrec
    have hlen := walk_length_of_empty res domain startingNS dig st hst k (by omega) hrec
    rw [hlen] at hne hprev1 hprev2 hearly
    refine ⟨fun j hj => hne j (by omega), hearly hk, ?_, ?_⟩
    · intro hk0
      exact hprev1 (by omega)
    · intro hk1
      have hp := hprev2 (by omega)
      have hk2 : k + 1 - 2 = k - 1 := by omega
      rw [hk2] at hp
      refine ⟨hp, ?_⟩
      obtain ⟨r, hr, hr0⟩ := hne (k - 1) (by omega)
      rw [hp] at hr
      rw [Option.some.inj hr]
      exact hr0

/-- C7, as the code has it: the walk makes at most `countDomainLevels(domain)`
NS resolutions; exactly that many when every level returns a record; and when
level `k` is the first to return no record it makes exactly `k + 1`, for the
levels `0..k` and no later one, which is fewer than
`countDomainLevels(domain)` when `k` is not the last level. -/
theorem walk_transitions (res : Resolver) (domain startingNS dig : String) :
    ∃ st, delegationWalk res domain startingNS dig = some st ∧
      st.calls.length ≤ countDomainLevels domain ∧
      ((∀ i, i < countDomainLevels domain →
          ∃ r, levelNSRecords res domain startingNS dig i = some r ∧ r ≠ []) →
        st.calls.length = countDomainLevels domain) ∧
      (∀ k, k < countDomainLevels domain →
        levelNSRecords res domain startingNS dig k = some [] →
        (∀ j, j < k → ∃ r, levelNSRecords res domain startingNS dig j = some r ∧ r ≠ []) ∧
        st.calls.length = k + 1 ∧
        (∀ (i : Nat) (c : ResolutionCall), st.calls[i]? = some c →
          i ≤ k ∧ getDomainLevel domain (i : Int) = some c.domain) ∧
        (k + 1 < countDomainLevels domain → st.calls.length < countDomainLevels domain)) := by
  obtain ⟨st, hst⟩ := delegationWalk_isSome res domain startingNS dig
  obtain ⟨h1, hle, _, hne, _⟩ := delegationWalk_spec res domain startingNS dig st hst
  refine ⟨st, hst, hle, ?_, ?_⟩
  · intro hall
    exact walk_length_of_nonempty res domain startingNS dig st hst
      (fun i hi => hall i (by omega))
  · intro k hk hrec
    have hlen := walk_length_of_empty res domain startingNS dig st hst k hk hrec
    rw [hlen] at hne
    refine ⟨fun j hj => hne j (by omega), hlen, ?_, fun hk1 => by omega⟩
    intro i c hc
    obtain ⟨hi, hcall⟩ := walk_call_eq_levelCall res domain startingNS dig st hst i c hc
    exact ⟨by omega, (levelCall_some res domain startingNS dig i c hcall).2.1⟩

/-- C7, as stated, fails: for the one-label domain `com` and a resolver that
returns no record, level 0 returns zero records and the walk has made
`countDomainLevels(domain)` resolutions, not fewer. -/
theorem single_label_walk_not_fewer :
    levelNSRecords emptyResolver "com" "8.8.8.8" "/usr/bin/dig" 0 = some [] ∧
    ∃ st, delegationWalk emptyResolver "com" "8.8.8.8" "/usr/bin/dig" = some st ∧
      ¬ (st.calls.length < countDomainLevels "com") :=
  ⟨by decide, _, rfl, by decide⟩

/-- C4: after the walk, `checkDomainWorker` makes one A resolution of the
full domain for each element of `currLevelNS` then of `prevLevelNS`, in
order and once per occurrence, and prints, in the same order, the finding
line of exactly those occurrences whose status is classified vulnerable. -/
theorem checkDomainWorker_probes (res : Resolver) (caseTable : Char → Char)
    (domain startingNS : String) (timeout : Int) (dig : String) :
    ∃ st run, delegationWalk res domain startingNS dig = some st ∧
      checkDomainWorker res caseTable domain startingNS timeout dig = some run ∧
      (∀ c ∈ st.calls, c.qtype = "NS") ∧
      run.calls = st.calls ++
        (st.currLevelNS ++ st.prevLevelNS).map (fun ns => ⟨domain, ns, "A", dig⟩) ∧
      run.stdout = (st.currLevelNS ++ st.prevLevelNS).filterMap (fun ns =>
        if classify caseTable (res domain ns "A" dig).1 VulnCheckStatuses = true
        then some ("[goclouddnstakeover] domain: " ++ domain ++ ", ns: " ++ ns ++
          ", status: " ++ (res domain ns "A" dig).1 ++ "\n")
        else none) := by
  obtain ⟨st, hst⟩ := delegationWalk_isSome res domain startingNS dig
  refine ⟨st, _, hst, checkDomainWorker_eq res caseTable domain startingNS timeout dig st hst,
    ?_, ?_, ?_⟩
  · intro c hc
    obtain ⟨i, hi, hget⟩ := List.getElem_of_mem hc
    have hc2 : st.calls[i]? = some c := by rw [List.getElem?_eq_getElem hi, hget]
    obtain ⟨_, hcall⟩ := walk_call_eq_levelCall res domain startingNS dig st hst i c hc2
    exact (levelCall_some res domain startingNS dig i c hcall).2.2.1
  · simp [probeLoop_eq]
  · simp [probeLoop_eq, findingLine_eq]

/-- C8, as the code has it: when the walk ends with the single final-level
nameserver `ns`, the A resolution of the domain against `ns` returns
`REFUSED`, and no nameserver of the previous level returns a status that is
classified vulnerable, exactly one finding is printed, the line for `ns`. -/
theorem refused_single_finding (res : Resolver) (caseTable : Char → Char)
    (domain startingNS : String) (timeout : Int) (dig ns : String) (st : WalkState)
    (hwalk : delegationWalk res domain startingNS dig = some st)
    (hcur : st.currLevelNS = [ns])
    (hstatus : (res domain ns "A" dig).1 = "REFUSED")
    (hprev : ∀ n ∈ st.prevLevelNS,
      classify caseTable (res domain n "A" dig).1 VulnCheckStatuses = false) :
    ∃ run, checkDomainWorker res caseTable domain startingNS timeout dig = some run ∧
      run.stdout = ["[goclouddnstakeover] domain: " ++ domain ++ ", ns: " ++ ns ++
        ", status: REFUSED\n"] := by
  refine ⟨_, checkDomainWorker_eq res caseTable domain startingNS timeout dig st hwalk, ?_⟩
  have hc : classify caseTable "REFUSED" VulnCheckStatuses = true := rfl
  have hnone : st.prevLevelNS.filterMap (fun n =>
      if classify caseTable (res domain n "A" dig).1 VulnCheckStatuses = true
      then some (findingLine domain n (res domain n "A" dig).1) else none) = [] := by
    rw [List.filterMap_eq_nil_iff]
    intro n hn
    simp [hprev n hn]
  have hline : findingLine domain ns "REFUSED"
      = "[goclouddnstakeover] domain: " ++ domain ++ ", ns: " ++ ns ++ ", status: REFUSED\n" := by
    rw [findingLine_eq, String.append_assoc _ ", status: ", String.append_assoc _ _ "\n"]
    rfl
  simp only [probeLoop_eq, hcur, List.nil_append, List.filterMap_append, List.filterMap_cons,
    List.filterMap_nil, hstatus, hc, if_true, hnone, List.append_nil, List.singleton_append,
    hline]

/-- C8, as stated, fails: the walk for `dangling.example.com` ends with one
final-level nameserver whose A resolution returns `REFUSED`, and two findings
are printed, because the nameserver of the previous level is probed too. -/
theorem refused_two_findings :
    ∃ st, delegationWalk refusingResolver "dangling.example.com" "8.8.8.8" "/usr/bin/dig"
        = some st ∧
      st.currLevelNS = ["ns-404.awsdns-50.com."] ∧
      (refusingResolver "dangling.example.com" "ns-404.awsdns-50.com." "A" "/usr/bin/dig").1
        = "REFUSED" ∧
      ∀ caseTable : Char → Char, ∃ run,
        checkDomainWorker refusingResolver caseTable "dangling.example.com" "8.8.8.8" 300
          "/usr/bin/dig" = some run ∧
        run.stdout =
          ["[goclouddnstakeover] domain: dangling.example.com, ns: ns-404.awsdns-50.com., status: REFUSED\n",
           "[goclouddnstakeover] domain: dangling.example.com, ns: ns1.example.com., status: REFUSED\n"] :=
  ⟨_, rfl, by decide, by decide, fun _ => ⟨_, rfl, rfl⟩⟩

/-- C3: the status loop of `checkDomainWorker` prints a finding if and only
if the status equals `SERVFAIL` or `REFUSED` when letter case is ignored;
a reported status has the length of one of the two, so nothing is matched as
a substring; for an ASCII status the test is equality after ASCII
upper-casing; `SERVFAIL` and `servfail` are reported, `NOERROR`, the empty
status and `XSERVFAIL` are not. -/
theorem report_iff_status_matches (caseTable : Char → Char) (domain ns status : String)
    (out : List String) :
    ((equalIgnoringCase caseTable status "SERVFAIL" = true ∨
        equalIgnoringCase caseTable status "REFUSED" = true) →
      reportLoop caseTable domain ns status VulnCheckStatuses out
        = out ++ [findingLine domain ns status]) ∧
    (¬ (equalIgnoringCase caseTable status "SERVFAIL" = true ∨
        equalIgnoringCase caseTable status "REFUSED" = true) →
      reportLoop caseTable domain ns status VulnCheckStatuses out = out) ∧
    (reportLoop caseTable domain ns status VulnCheckStatuses out ≠ out →
      status.length = 8 ∨ status.length = 7) ∧
    ((∀ c ∈ status.data, c.toNat ≤ 127) →
      (reportLoop caseTable domain ns status VulnCheckStatuses out ≠ out ↔
        status.data.map Char.toUpper = "SERVFAIL".data ∨
        status.data.map Char.toUpper = "REFUSED".data)) ∧
    reportLoop caseTable domain ns "SERVFAIL" VulnCheckStatuses out
      = out ++ [findingLine domain ns "SERVFAIL"] ∧
    reportLoop caseTable domain ns "servfail" VulnCheckStatuses out
      = out ++ [findingLine domain ns "servfail"] ∧
    reportLoop caseTable domain ns "NOERROR" VulnCheckStatuses out = out ∧
    reportLoop caseTable domain ns "" VulnCheckStatuses out = out ∧
    reportLoop caseTable domain ns "XSERVFAIL" VulnCheckStatuses out = out := by
  have hcl : ∀ st : String, (classify caseTable st VulnCheckStatuses = true) ↔
      (equalIgnoringCase caseTable st "SERVFAIL" = true ∨
        equalIgnoringCase caseTable st "REFUSED" = true) := by
    intro st
    simp [classify, VulnCheckStatuses]
  have hyes : ∀ st : String, classify caseTable st VulnCheckStatuses = true →
      reportLoop caseTable domain ns st VulnCheckStatuses out
        = out ++ [findingLine domain ns st] := by
    intro st h
    rw [reportLoop_classify, if_pos h]
  have hno : ∀ st : String, ¬ classify caseTable st VulnCheckStatuses = true →
      reportLoop caseTable domain ns st VulnCheckStatuses out = out := by
    intro st h
    rw [reportLoop_classify, if_neg h]
  have hiff : reportLoop caseTable domain ns status VulnCheckStatuses out ≠ out ↔
      classify caseTable status VulnCheckStatuses = true := by
    constructor
    · intro h
      by_contra hc
      exact h (hno status hc)
    · intro h
      rw [hyes status h]
      simp
  refine ⟨fun h => hyes status ((hcl status).2 h), fun h => hno status (fun hc => h ((hcl status).1 hc)),
    ?_, ?_, hyes _ rfl, hyes _ rfl, hno _ (by simp [show classify caseTable "NOERROR" VulnCheckStatuses = false from rfl]),
    hno _ (by simp [show classify caseTable "" VulnCheckStatuses = false from rfl]),
    hno _ (by simp [show classify caseTable "XSERVFAIL" VulnCheckStatuses = false from rfl])⟩
  · intro h
    rcases (hcl status).1 (hiff.1 h) with h1 | h1
    · left
      exact equalIgnoringCaseRunes_length caseTable _ _ h1
    · right
      exact equalIgnoringCaseRunes_length caseTable _ _ h1
  · intro hascii
    have hmap : status.data.map (unicodeToUpper caseTable) = status.data.map Char.toUpper := by
      apply List.map_congr_left
      intro c hc
      exact unicodeToUpper_ascii caseTable c (hascii c hc)
    rw [hiff, hcl, equalIgnoringCase, equalIgnoringCase,
      equalIgnoringCaseRunes_iff _ _ _ (upperFixed_SERVFAIL caseTable),
      equalIgnoringCaseRunes_iff _ _ _ (upperFixed_REFUSED caseTable), hmap]

/-- C5: for `0 ≤ level ≤ maxLevel - 1`, `getDomainLevel` returns, without
failing, the labels from index `maxLevel - 1 - level` to the end joined by
dots; level 0 is the rightmost label and each higher level prepends the next
label to the left; for `www.msn.com` the levels are `com`, `msn.com` and
`www.msn.com`. -/
theorem getDomainLevel_suffix (domain : String) (level : Int)
    (h0 : 0 ≤ level) (h1 : level ≤ (countDomainLevels domain : Int) - 1) :
    getDomainLevel domain level = some (String.intercalate "."
      ((stringsSplitDot domain).drop
        ((countDomainLevels domain : Int) - 1 - level).toNat)) ∧
    getDomainLevel domain 0 = (stringsSplitDot domain).getLast? ∧
    (0 < level → ∃ label shorter,
      (stringsSplitDot domain)[((countDomainLevels domain : Int) - 1 - level).toNat]?
        = some label ∧
      getDomainLevel domain (level - 1) = some shorter ∧
      getDomainLevel domain level = some (label ++ "." ++ shorter)) ∧
    getDomainLevel "www.msn.com" 0 = some "com" ∧
    getDomainLevel "www.msn.com" 1 = some "msn.com" ∧
    getDomainLevel "www.msn.com" 2 = some "www.msn.com" := by
  have hpos := countDomainLevels_pos domain
  refine ⟨getDomainLevel_eq_intercalate domain level h0 h1, ?_, ?_, by decide, by decide,
    by decide⟩
  · rw [getDomainLevel_eq_intercalate domain 0 (le_refl _) (by omega)]
    simp only [countDomainLevels] at hpos ⊢
    generalize stringsSplitDot domain = parts at hpos ⊢
    have hne : parts ≠ [] := by
      intro h
      rw [h] at hpos
      simp at hpos
    have hn : ((parts.length : Int) - 1 - 0).toNat = parts.length - 1 := by omega
    have hlt : parts.length - 1 < parts.length := by omega
    rw [hn, List.drop_eq_getElem_cons hlt, List.getLast?_eq_getElem?,
      List.getElem?_eq_getElem hlt]
    have hd : parts.drop (parts.length - 1 + 1) = [] := by
      apply List.drop_eq_nil_of_le
      omega
    simp [hd, String.intercalate, String.intercalate.go]
  · intro hlevel
    rw [getDomainLevel_eq_intercalate domain level h0 h1,
      getDomainLevel_eq_intercalate domain (level - 1) (by omega) (by omega)]
    simp only [countDomainLevels] at h1 ⊢
    generalize stringsSplitDot domain = parts at h1 ⊢
    obtain ⟨n, hn⟩ : ∃ n : Nat, ((parts.length : Int) - 1 - level).toNat = n := ⟨_, rfl⟩
    have hn2 : ((parts.length : Int) - 1 - (level - 1)).toNat = n + 1 := by omega
    have hlt : n + 1 < parts.length := by omega
    rw [hn, hn2]
    refine ⟨parts[n], _, List.getElem?_eq_getElem (by omega), rfl, ?_⟩
    rw [List.drop_eq_getElem_cons (show n < parts.length by omega),
      List.drop_eq_getElem_cons hlt, intercalate_cons_cons]

/-- C6: `countDomainLevels` is the number of dot-separated labels of the
domain (the labels contain no dot and joined by dots give the domain back),
one more than the number of dots, hence at least 1; the empty string has one
empty level; `www.msn.com` has 3 levels and `com` has 1. -/
theorem countDomainLevels_labels (domain : String) :
    countDomainLevels domain = (stringsSplitDot domain).length ∧
    String.intercalate "." (stringsSplitDot domain) = domain ∧
    (∀ p ∈ stringsSplitDot domain, '.' ∉ p.data) ∧
    countDomainLevels domain = domain.data.count '.' + 1 ∧
    1 ≤ countDomainLevels domain ∧
    countDomainLevels "" = 1 ∧ stringsSplitDot "" = [""] ∧
    countDomainLevels "www.msn.com" = 3 ∧ countDomainLevels "com" = 1 := by
  refine ⟨rfl, intercalate_stringsSplitDot domain, ?_, countDomainLevels_eq domain,
    countDomainLevels_pos domain, by decide, by decide, by decide, by decide⟩
  intro p hp
  simp only [stringsSplitDot, List.mem_map] at hp
  obtain ⟨q, hq, rfl⟩ := hp
  exact splitOnDot_no_dot domain.data q hq

/-- C9: the code at the inputs of the doc comment of `getDomainLevel`: level 2
of `www.msn.com` is `www.msn.com` and level 1 is `msn.com`, so levels are
counted from 0 and not from 1 as the comment says. -/
theorem getDomainLevel_counts_from_zero :
    getDomainLevel "www.msn.com" 2 = some "www.msn.com" ∧
    getDomainLevel "www.msn.com" 1 = some "msn.com" ∧
    getDomainLevel "www.msn.com" 2 ≠ some "msn.com" ∧
    getDomainLevel "www.msn.com" 1 ≠ some "com" := by
  decide

/-! ## The theorems at concrete inputs -/

/-- Witness of C1: `www.msn.com` with every level delegated, and with the
delegation broken at `msn.com`. -/
theorem delegationWalk_result_witness :
    (∀ i, i + 1 < countDomainLevels "www.msn.com" →
      ∃ r, levelNSRecords intactResolver "www.msn.com" "8.8.8.8" "/usr/bin/dig" i = some r ∧
        r ≠ []) ∧
    levelNSRecords brokenResolver "www.msn.com" "8.8.8.8" "/usr/bin/dig" 1 = some [] ∧
    (∃ st, delegationWalk intactResolver "www.msn.com" "8.8.8.8" "/usr/bin/dig" = some st ∧
      st.currLevelNS = ["ns1.www.msn.com", "ns2.www.msn.com"] ∧
      st.prevLevelNS = ["ns1.msn.com", "ns2.msn.com"]) ∧
    (∃ st, delegationWalk brokenResolver "www.msn.com" "8.8.8.8" "/usr/bin/dig" = some st ∧
      st.currLevelNS = [] ∧ st.prevLevelNS = ["a.gtld-servers.net."]) := by
  have hcount : countDomainLevels "www.msn.com" = 3 := by decide
  have hall : ∀ i, i + 1 < countDomainLevels "www.msn.com" →
      ∃ r, levelNSRecords intactResolver "www.msn.com" "8.8.8.8" "/usr/bin/dig" i = some r ∧
        r ≠ [] := by
    intro i hi
    rw [hcount] at hi
    have hi2 : i < 2 := by omega
    interval_cases i
    · exact ⟨_, rfl, by decide⟩
    · exact ⟨_, rfl, by decide⟩
  have hbroken : levelNSRecords brokenResolver "www.msn.com" "8.8.8.8" "/usr/bin/dig" 1
      = some [] := by decide
  refine ⟨hall, hbroken, ?_, ?_⟩
  · obtain ⟨_, st, hst, hfull, _⟩ :=
      delegationWalk_result intactResolver "www.msn.com" "8.8.8.8" "/usr/bin/dig"
    obtain ⟨hcur, _, hprev⟩ := hfull hall
    have h2 : levelNSRecords intactResolver "www.msn.com" "8.8.8.8" "/usr/bin/dig"
        (countDomainLevels "www.msn.com" - 1) = some ["ns1.www.msn.com", "ns2.www.msn.com"] := by
      decide
    have h1 : levelNSRecords intactResolver "www.msn.com" "8.8.8.8" "/usr/bin/dig"
        (countDomainLevels "www.msn.com" - 2) = some ["ns1.msn.com", "ns2.msn.com"] := by
      decide
    have hprev := hprev (by decide)
    rw [h2] at hcur
    rw [h1] at hprev
    exact ⟨st, hst, (Option.some.inj hcur).symm, (Option.some.inj hprev).symm⟩
  · obtain ⟨_, st, hst, _, hearly⟩ :=
      delegationWalk_result brokenResolver "www.msn.com" "8.8.8.8" "/usr/bin/dig"
    obtain ⟨_, hcur, _, hprev⟩ := hearly 1 (by decide) hbroken
    obtain ⟨hprev, _⟩ := hprev (le_refl _)
    have h0 : levelNSRecords brokenResolver "www.msn.com" "8.8.8.8" "/usr/bin/dig" (1 - 1)
        = some ["a.gtld-servers.net."] := by decide
    rw [h0] at hprev
    exact ⟨st, hst, hcur, (Option.some.inj hprev).symm⟩

/-- Witness of C2: the second resolution for `www.msn.com` asks `msn.com` at
the first nameserver returned for `com`. -/
theorem walk_queries_witness :
    ∃ st, delegationWalk intactResolver "www.msn.com" "8.8.8.8" "/usr/bin/dig" = some st ∧
      st.calls[1]? = some ⟨"msn.com", "ns1.com", "NS", "/usr/bin/dig"⟩ ∧
      getDomainLevel "www.msn.com" 1 = some "msn.com" ∧
      (intactResolver "com" "8.8.8.8" "NS" "/usr/bin/dig").2.head? = some "ns1.com" := by
  obtain ⟨st, hst, _, hcalls⟩ :=
    walk_queries intactResolver "www.msn.com" "8.8.8.8" "/usr/bin/dig"
  have heval : delegationWalk intactResolver "www.msn.com" "8.8.8.8" "/usr/bin/dig"
      = some { status := "NOERROR", prevLevelNS := ["ns1.msn.com", "ns2.msn.com"],
               currLevelNS := ["ns1.www.msn.com", "ns2.www.msn.com"],
               nameserver := "ns1.www.msn.com",
               calls := [⟨"com", "8.8.8.8", "NS", "/usr/bin/dig"⟩,
                 ⟨"msn.com", "ns1.com", "NS", "/usr/bin/dig"⟩,
                 ⟨"www.msn.com", "ns1.msn.com", "NS", "/usr/bin/dig"⟩] } := by decide
  rw [heval] at hst
  have hst2 := (Option.some.inj hst).symm
  subst hst2
  obtain ⟨hname, _, _, _, hprev⟩ := hcalls 1 ⟨"msn.com", "ns1.com", "NS", "/usr/bin/dig"⟩ rfl
  exact ⟨_, heval, rfl, hname, hprev 0 ⟨"com", "8.8.8.8", "NS", "/usr/bin/dig"⟩ rfl rfl⟩

/-- Witness of C3: the status `refused` is reported. -/
theorem report_iff_status_matches_witness :
    (equalIgnoringCase id "refused" "SERVFAIL" = true ∨
      equalIgnoringCase id "refused" "REFUSED" = true) ∧
    reportLoop id "dangling.example.com" "ns-404.awsdns-50.com." "refused" VulnCheckStatuses []
      = [] ++ [findingLine "dangling.example.com" "ns-404.awsdns-50.com." "refused"] :=
  ⟨by decide,
    (report_iff_status_matches id "dangling.example.com" "ns-404.awsdns-50.com." "refused" []).1
      (by decide)⟩

/-- Witness of C5: level 1 of `www.msn.com`. -/
theorem getDomainLevel_suffix_witness :
    (0 : Int) ≤ 1 ∧ (1 : Int) ≤ (countDomainLevels "www.msn.com" : Int) - 1 ∧
    getDomainLevel "www.msn.com" 1 = some (String.intercalate "."
      ((stringsSplitDot "www.msn.com").drop
        ((countDomainLevels "www.msn.com" : Int) - 1 - 1).toNat)) :=
  ⟨by decide, by decide, (getDomainLevel_suffix "www.msn.com" 1 (by decide) (by decide)).1⟩

/-- Witness of C7: with the delegation of `www.msn.com` broken at `msn.com`
the walk makes two resolutions. -/
theorem walk_transitions_witness :
    levelNSRecords brokenResolver "www.msn.com" "8.8.8.8" "/usr/bin/dig" 1 = some [] ∧
    ∃ st, delegationWalk brokenResolver "www.msn.com" "8.8.8.8" "/usr/bin/dig" = some st ∧
      st.calls.length = 2 ∧ st.calls.length < countDomainLevels "www.msn.com" := by
  have hbroken : levelNSRecords brokenResolver "www.msn.com" "8.8.8.8" "/usr/bin/dig" 1
      = some [] := by decide
  obtain ⟨st, hst, _, _, hstop⟩ :=
    walk_transitions brokenResolver "www.msn.com" "8.8.8.8" "/usr/bin/dig"
  obtain ⟨_, hlen, _, hfewer⟩ := hstop 1 (by decide) hbroken
  exact ⟨hbroken, st, hst, hlen, hfewer (by decide)⟩

/-- Witness of C8: `dangling.example.com` is delegated to a nameserver that
answers `REFUSED`, the nameserver of `example.com` answers `NOERROR`. -/
theorem refused_single_finding_witness :
    ∃ st, delegationWalk danglingResolver "dangling.example.com" "8.8.8.8" "/usr/bin/dig"
        = some st ∧
      st.currLevelNS = ["ns-404.awsdns-50.com."] ∧
      (danglingResolver "dangling.example.com" "ns-404.awsdns-50.com." "A" "/usr/bin/dig").1
        = "REFUSED" ∧
      (∀ n ∈ st.prevLevelNS, classify id
        (danglingResolver "dangling.example.com" n "A" "/usr/bin/dig").1 VulnCheckStatuses
          = false) ∧
      ∃ run, checkDomainWorker danglingResolver id "dangling.example.com" "8.8.8.8" 300
          "/usr/bin/dig" = some run ∧
        run.stdout = ["[goclouddnstakeover] domain: " ++ "dangling.example.com" ++ ", ns: " ++
          "ns-404.awsdns-50.com." ++ ", status: REFUSED\n"] :=
  ⟨_, rfl, by decide, by decide, by decide,
    refused_single_finding danglingResolver id "dangling.example.com" "8.8.8.8" 300
      "/usr/bin/dig" "ns-404.awsdns-50.com." _ rfl (by decide) (by decide) (by decide)⟩

end GoCloudDNSTakeover
